import Mathlib

/-!
Verification of the review scraping-and-cleaning pipeline in
`extension/popup.js`: the text cleaner `cleanReviewText`, the selector
collector `gatherTextFromSelectors`, the title resolver loop, and the
injected scrape function.  Strings are modelled as `List Char`; the
JavaScript global-regex `replace` with empty replacement is modelled by a
fueled leftmost-match scanner (`replW`), with each concrete regex of the
source rendered as a match-length function at a position.
-/

/-- ASCII-case-folded code point, mirroring the `i` regex flag on the
ASCII-only patterns of the source. -/
def lcNat (c : Char) : Nat :=
  if 65 ≤ c.toNat && c.toNat ≤ 90 then c.toNat + 32 else c.toNat

/-- Case-insensitive character equality (ASCII folding). -/
def ciEq (a b : Char) : Bool := lcNat a == lcNat b

/-- Does `l` start with the literal `pat`, case-insensitively? -/
def ciStarts : List Char → List Char → Bool
  | [], _ => true
  | _ :: _, [] => false
  | p :: ps, c :: cs => ciEq p c && ciStarts ps cs

/-- There is a case-insensitive mismatch between `pat` and `l` at a
position that lies inside both lists (so no extension of `l` can make
`pat` a case-insensitive starting match). -/
def ciConflict : List Char → List Char → Bool
  | [], _ => false
  | _ :: _, [] => false
  | p :: ps, c :: cs => (!ciEq p c) || ciConflict ps cs

/-- JavaScript regex line terminators (the characters `.` does not match). -/
def lineTerm (c : Char) : Bool :=
  c == '\n' || c == '\r' || c == ' ' || c == ' '

/-- JavaScript `\s` / `String.prototype.trim` whitespace. -/
def jsWs (c : Char) : Bool :=
  c == '\t' || c == '\n' || c == '\x0b' || c == '\x0c' || c == '\r' ||
  c == ' ' || c == ' ' || c == ' ' ||
  (decide (0x2000 ≤ c.toNat) && decide (c.toNat ≤ 0x200A)) ||
  c == ' ' || c == ' ' || c == ' ' || c == ' ' ||
  c == '　' || c == '﻿'

/-- Literal tail of the star-rating regex `(\d\.\d out of 5 stars)`. -/
def starsTail : List Char := " out of 5 stars".data

/-- Literal tail of the vote-count regex `\d+ people found this helpful`. -/
def peopleTail : List Char := " people found this helpful".data

/-- Literal head of `Reviewed in India on .*`. -/
def indiaPre : List Char := "Reviewed in India on ".data

/-- Literal head of `Reviewed in the United Arab Emirates on .*`. -/
def uaePre : List Char := "Reviewed in the United Arab Emirates on ".data

/-- Match length of `(\d\.\d out of 5 stars)` at the head of `l`. -/
def starsAt : List Char → Option Nat
  | a :: b :: c :: rest =>
    if a.isDigit && (b == '.') && c.isDigit && ciStarts starsTail rest
    then some (3 + starsTail.length) else none
  | _ => none

/-- Match length of a `Reviewed in <region> on .*` stamp at the head of
`l`: the literal head `pre` followed by the greedy `.*`, which consumes
every following character up to the next line terminator. -/
def stampAt (pre : List Char) (l : List Char) : Option Nat :=
  if ciStarts pre l
  then some (pre.length + ((l.drop pre.length).takeWhile (fun c => !lineTerm c)).length)
  else none

/-- Match length of a case-insensitive literal at the head of `l`. -/
def litAt (pat : List Char) (l : List Char) : Option Nat :=
  if ciStarts pat l then some pat.length else none

/-- Match length of `\d+ people found this helpful` at the head of `l`:
a maximal nonempty digit run followed by the literal tail (the greedy
`\d+` cannot backtrack past the run because the tail starts with a
non-digit). -/
def peopleAt (l : List Char) : Option Nat :=
  let ds := l.takeWhile Char.isDigit
  if decide (0 < ds.length) && ciStarts peopleTail (l.drop ds.length)
  then some (ds.length + peopleTail.length) else none

/-- The eight entries of the source's `noisePatterns` array, in order. -/
inductive NoisePat where
  | stars | india | uae | verified | helpful | report | people | onePerson
deriving DecidableEq

/-- The match-at-position function of each noise pattern. -/
def matchOf : NoisePat → (List Char → Option Nat)
  | .stars => starsAt
  | .india => stampAt indiaPre
  | .uae => stampAt uaePre
  | .verified => litAt "Verified Purchase".data
  | .helpful => litAt "Helpful".data
  | .report => litAt "Report".data
  | .people => peopleAt
  | .onePerson => litAt "One person found this helpful".data

/-- The source's `noisePatterns`, in application order. -/
def noiseList : List NoisePat :=
  [.stars, .india, .uae, .verified, .helpful, .report, .people, .onePerson]

/-- Fueled model of `String.prototype.replace` with a global regex and
replacement `rep`: scan left to right, replace each leftmost nonempty
match and resume immediately after it; a non-matching (or empty-match)
position keeps its character.  With fuel at least the input length this
is total on the whole input. -/
def replW (p : List Char → Option Nat) (rep : List Char) : Nat → List Char → List Char
  | _, [] => []
  | 0, l => l
  | f + 1, c :: cs =>
    match p (c :: cs) with
    | some (n + 1) => rep ++ replW p rep f (cs.drop n)
    | _ => c :: replW p rep f cs

/-- `text.replace(pattern, rep)` with a global regex. -/
def replaceAll (p : List Char → Option Nat) (rep : List Char) (l : List Char) : List Char :=
  replW p rep l.length l

/-- Does the pattern produce a nonempty match at this exact position? -/
def isHit (p : List Char → Option Nat) (l : List Char) : Bool :=
  match p l with
  | some (_ + 1) => true
  | _ => false

/-- Does the pattern match (nonemptily) at some position of `l`? -/
def containsPat (p : List Char → Option Nat) : List Char → Bool
  | [] => false
  | c :: cs => isHit p (c :: cs) || containsPat p cs

/-- `text.split('\n')`. -/
def splitNl : List Char → List (List Char)
  | [] => [[]]
  | c :: cs =>
    if c == '\n' then [] :: splitNl cs
    else
      match splitNl cs with
      | [] => [[c]]
      | h :: t => (c :: h) :: t

/-- JavaScript `String.prototype.trim`. -/
def jsTrim (l : List Char) : List Char :=
  ((l.dropWhile jsWs).reverse.dropWhile jsWs).reverse

/-- The line filter of the source: keep a line when its trimmed form is
longer than 15 characters and includes a space. -/
def keepLine (line : List Char) : Bool :=
  decide (15 < (jsTrim line).length) && (jsTrim line).contains ' '

/-- `lines.join(' ')`. -/
def joinSp : List (List Char) → List Char
  | [] => []
  | [l] => l
  | l :: ls => l ++ ' ' :: joinSp ls

/-- Match length of `\s\s+` at the head of `l`: two whitespace characters
followed greedily by the rest of the whitespace run. -/
def wsRunAt : List Char → Option Nat
  | a :: b :: rest =>
    if jsWs a && jsWs b then some ((rest.takeWhile jsWs).length + 2) else none
  | _ => none

/-- No two adjacent characters of the list are both whitespace (the shape
left by the `\s\s+` collapse). -/
def noTwoWs : List Char → Bool
  | [] => true
  | [_] => true
  | a :: b :: rest => !(jsWs a && jsWs b) && noTwoWs (b :: rest)

/-- Apply a list of noise patterns in order, each as a global
delete-replacement. -/
def stripL (ps : List NoisePat) (l : List Char) : List Char :=
  ps.foldl (fun acc np => replaceAll (matchOf np) [] acc) l

/-- Step 1 of `cleanReviewText`: delete the eight noise patterns in order. -/
def stripNoise (l : List Char) : List Char := stripL noiseList l

/-- Steps 1–3 of `cleanReviewText` on character lists: strip noise, keep
sentence-like lines, re-join with spaces, collapse multi-whitespace runs,
trim. -/
def cleanCore (l : List Char) : List Char :=
  jsTrim (replaceAll wsRunAt [' '] (joinSp ((splitNl (stripNoise l)).filter keepLine)))

/-- The source's `cleanReviewText`, with the falsy-input fast path. -/
def cleanReviewText (s : String) : String :=
  if s = "" then "" else String.mk (cleanCore s.data)

/-- String-level wrapper of the noise-deletion stage alone. -/
def stripNoiseStr (s : String) : String := String.mk (stripNoise s.data)

/-- Does the given configured noise pattern match somewhere in `s`? -/
def containsPatStr (np : NoisePat) (s : String) : Bool :=
  containsPat (matchOf np) s.data

/-- String-level JavaScript trim. -/
def jsTrimStr (s : String) : String := String.mk (jsTrim s.data)

/-- A text-bearing DOM element: its rendered text and raw text content
(empty string models an absent value). -/
structure Elem where
  innerText : String
  textContent : String
deriving DecidableEq

/-- `el.innerText || el.textContent || ''`. -/
def elemText (e : Elem) : String :=
  if e.innerText ≠ "" then e.innerText else e.textContent

/-- A document, abstracted to its `querySelectorAll` behaviour: each
selector string either yields the matched elements in document order, or
throws. -/
structure Document where
  qsa : String → Except Unit (List Elem)

/-- `document.querySelector`, derived as the head of `querySelectorAll`. -/
def querySelector (d : Document) (s : String) : Except Unit (Option Elem) :=
  (d.qsa s).map List.head?

/-- The per-element body of `gatherTextFromSelectors`: trim, clean, and
accept a candidate when it is nonempty, longer than 20 characters, and
not yet collected. -/
def acceptElems (out : List String) : List Elem → List String
  | [] => out
  | e :: es =>
    let cleaned := cleanReviewText (jsTrimStr (elemText e))
    if cleaned ≠ "" ∧ 20 < cleaned.length ∧ cleaned ∉ out
    then acceptElems (out ++ [cleaned]) es
    else acceptElems out es

/-- The selector loop of `gatherTextFromSelectors`: a throwing selector is
caught and skipped, a successful query feeds its elements to the
accumulator. -/
def gatherAux (d : Document) : List String → List String → List String
  | out, [] => out
  | out, sel :: sels =>
    match d.qsa sel with
    | .ok els => gatherAux d (acceptElems out els) sels
    | .error _ => gatherAux d out sels

/-- The source's `gatherTextFromSelectors`. -/
def gatherTextFromSelectors (sels : List String) (d : Document) : List String :=
  gatherAux d [] sels

/-- The injected title loop: first selector whose single match has
nonempty text wins (trimmed); query failures are caught and skipped. -/
def resolveTitle (d : Document) : List String → String
  | [] => ""
  | s :: ss =>
    match querySelector d s with
    | .ok (some el) =>
      if elemText el ≠ "" then jsTrimStr (elemText el) else resolveTitle d ss
    | _ => resolveTitle d ss

/-- The source's `reviewSelectors`. -/
def reviewSelectors : List String :=
  ["#cm_cr-review_list .review-text-content span",
   "[data-hook=\"review-body\"] span",
   ".review-text",
   ".a-section.review",
   ".q4Rxxz",
   "._16PBlm",
   ".comment",
   ".review"]

/-- The source's `titleSelectors`. -/
def titleSelectors : List String :=
  ["#productTitle", ".B_NuCI", "h1", ".yhB1nd", ".itvQmW"]

/-- The object returned by the injected scrape function. -/
structure ScrapeResult where
  reviews : List String
  title : String
  url : String
deriving DecidableEq

/-- The injected scrape function: collect reviews, truncate to 30,
resolve the title, and report the source location. -/
def scrapePage (d : Document) (loc : String) : ScrapeResult :=
  ⟨(gatherTextFromSelectors reviewSelectors d).take 30,
   resolveTitle d titleSelectors, loc⟩

/-- Did querying this selector succeed? -/
def selOk (d : Document) (s : String) : Bool :=
  match d.qsa s with
  | .ok _ => true
  | .error _ => false

/-- Does the title loop accept this selector: the query succeeds, an
element is found, and its text is nonempty? -/
def titleHit (d : Document) (s : String) : Bool :=
  match querySelector d s with
  | .ok (some el) => elemText el != ""
  | _ => false

/-- The text the title loop would read from this selector. -/
def firstText (d : Document) (s : String) : String :=
  match querySelector d s with
  | .ok (some el) => elemText el
  | _ => ""

/-- A document whose `h1` alone carries text, for the title example. -/
def exDoc : Document :=
  ⟨fun s => if s = "h1" then .ok [⟨"Wireless Mouse", "Wireless Mouse"⟩] else .ok []⟩

/-- A document in which every selector matches zero elements. -/
def docEmpty : Document := ⟨fun _ => .ok []⟩

/-- Modelled from the spec: collapse every maximal whitespace run —
including runs of a single character — to one space (the reading of
"every run of whitespace collapsed to one space"). -/
def collapseAllF : Nat → List Char → List Char
  | _, [] => []
  | 0, l => l
  | f + 1, c :: cs =>
    if jsWs c then ' ' :: collapseAllF f (cs.dropWhile jsWs)
    else c :: collapseAllF f cs

/-- Collapse only runs of two or more whitespace characters to one
space, keeping a lone whitespace character as it is; written as a direct
run-grouping recursion, to be compared with the scanner of the source. -/
def collapse2F : Nat → List Char → List Char
  | _, [] => []
  | 0, l => l
  | f + 1, c :: cs =>
    if jsWs c && (match cs.head? with | some d => jsWs d | none => false)
    then ' ' :: collapse2F f (cs.dropWhile jsWs)
    else c :: collapse2F f cs

/-- Modelled from the spec's words for the cleaner: strip noise, keep
sentence-like lines, join with single spaces, collapse every whitespace
run (of any length) to one space, trim. -/
def specCleanDesc (s : String) : String :=
  if s = "" then "" else
    String.mk (jsTrim (collapseAllF
      (joinSp ((splitNl (stripNoise s.data)).filter keepLine)).length
      (joinSp ((splitNl (stripNoise s.data)).filter keepLine))))

/-- The amended description: as `specCleanDesc` but collapsing only runs
of two or more whitespace characters. -/
def specCleanFixed (s : String) : String :=
  if s = "" then "" else
    String.mk (jsTrim (collapse2F
      (joinSp ((splitNl (stripNoise s.data)).filter keepLine)).length
      (joinSp ((splitNl (stripNoise s.data)).filter keepLine))))

theorem replW_empty (p : List Char → Option Nat) (rep : List Char) (f : Nat) :
    replW p rep f [] = [] := by
  cases f <;> rfl

theorem replW_sub (p : List Char → Option Nat) (f : Nat) :
    ∀ l : List Char, (replW p [] f l).Sublist l := by
  induction f with
  | zero =>
    intro l
    cases l with
    | nil => simp [replW]
    | cons c cs => simp [replW]
  | succ f ih =>
    intro l
    cases l with
    | nil => simp [replW]
    | cons c cs =>
      cases hp : p (c :: cs) with
      | none =>
        simp only [replW, hp]
        exact List.Sublist.cons₂ c (ih cs)
      | some n =>
        cases n with
        | zero =>
          simp only [replW, hp]
          exact List.Sublist.cons₂ c (ih cs)
        | succ m =>
          simp only [replW, hp, List.nil_append]
          exact List.Sublist.cons c ((ih (cs.drop m)).trans (List.drop_sublist m cs))

theorem isHit_exists {p : List Char → Option Nat} {l : List Char}
    (h : isHit p l = true) : ∃ n, p l = some (n + 1) := by
  unfold isHit at h
  cases hp : p l with
  | none => rw [hp] at h; simp at h
  | some n =>
    cases n with
    | zero => rw [hp] at h; simp at h
    | succ m => exact ⟨m, rfl⟩

theorem replW_length_lt (p : List Char → Option Nat) :
    ∀ (f : Nat) (l : List Char), l.length ≤ f → containsPat p l = true →
      (replW p [] f l).length < l.length := by
  intro f
  induction f with
  | zero =>
    intro l hl hc
    have : l = [] := List.length_eq_zero.mp (Nat.le_zero.mp hl)
    subst this
    simp [containsPat] at hc
  | succ f ih =>
    intro l hl hc
    cases l with
    | nil => simp [containsPat] at hc
    | cons c cs =>
      simp only [containsPat] at hc
      cases hh : isHit p (c :: cs) with
      | true =>
        obtain ⟨n, hp⟩ := isHit_exists hh
        simp only [replW, hp, List.nil_append]
        have h1 : (replW p [] f (cs.drop n)).length ≤ (cs.drop n).length :=
          (replW_sub p f _).length_le
        have h2 : (cs.drop n).length ≤ cs.length := (List.drop_sublist n cs).length_le
        simp only [List.length_cons]
        omega
      | false =>
        rw [hh] at hc
        simp only [Bool.false_or] at hc
        have hcs : cs.length ≤ f := by
          simp only [List.length_cons] at hl
          omega
        have hrec := ih cs hcs hc
        cases hp : p (c :: cs) with
        | none =>
          simp only [replW, hp, List.length_cons]
          omega
        | some n =>
          cases n with
          | zero =>
            simp only [replW, hp, List.length_cons]
            omega
          | succ m =>
            rw [isHit, hp] at hh
            simp at hh

theorem replaceAll_fix {p : List Char → Option Nat} {l : List Char}
    (h : replaceAll p [] l = l) : containsPat p l = false := by
  cases hc : containsPat p l with
  | false => rfl
  | true =>
    have hlt := replW_length_lt p l.length l (Nat.le_refl _) hc
    have h' : replW p [] l.length l = l := h
    rw [h'] at hlt
    exact absurd hlt (lt_irrefl _)

theorem stripL_cons (np : NoisePat) (ps : List NoisePat) (l : List Char) :
    stripL (np :: ps) l = stripL ps (replaceAll (matchOf np) [] l) := rfl

theorem stripL_length : ∀ (ps : List NoisePat) (l : List Char),
    (stripL ps l).length ≤ l.length := by
  intro ps
  induction ps with
  | nil => intro l; exact Nat.le_refl _
  | cons np ps ih =>
    intro l
    calc (stripL (np :: ps) l).length
        = (stripL ps (replaceAll (matchOf np) [] l)).length := rfl
      _ ≤ (replaceAll (matchOf np) [] l).length := ih _
      _ ≤ l.length := (replW_sub (matchOf np) l.length l).length_le

theorem stripL_fix : ∀ (ps : List NoisePat) (l : List Char), stripL ps l = l →
    ∀ np ∈ ps, containsPat (matchOf np) l = false := by
  intro ps
  induction ps with
  | nil =>
    intro l _ np hnp
    simp at hnp
  | cons q ps ih =>
    intro l h np hnp
    have h3 : stripL ps (replaceAll (matchOf q) [] l) = l := h
    have hlen : (replaceAll (matchOf q) [] l).length = l.length := by
      have h1 := stripL_length ps (replaceAll (matchOf q) [] l)
      have h2 := (replW_sub (matchOf q) l.length l).length_le
      rw [h3] at h1
      exact Nat.le_antisymm h2 h1
    have hr : replaceAll (matchOf q) [] l = l :=
      (replW_sub (matchOf q) l.length l).eq_of_length hlen
    rcases List.mem_cons.mp hnp with rfl | hmem
    · exact replaceAll_fix hr
    · rw [hr] at h3
      exact ih l h3 np hmem

theorem stringDataMk (l : List Char) : (String.mk l).data = l := rfl

theorem stripNoiseStr_fix_noPat {s : String}
    (h : stripNoiseStr s = s) : ∀ np ∈ noiseList, containsPatStr np s = false := by
  intro np hnp
  have h2 := congrArg String.data h
  simp only [stripNoiseStr, stringDataMk] at h2
  exact stripL_fix noiseList s.data h2 np hnp

/-- Claim C1, counterexample: the input contains a `Helpful` occurrence,
and deleting it fuses the surrounding characters into a new `Helpful`
occurrence, which survives into the cleaned output — so `clean(s)` does
contain a configured noise pattern. -/
theorem c1_counterexample :
    containsPatStr NoisePat.helpful "HelpHelpfulful aaaa bbbb cccc" = true ∧
    containsPatStr NoisePat.helpful (cleanReviewText "HelpHelpfulful aaaa bbbb cccc") = true := by
  constructor <;> decide

/-- Claim C1, amended: for every input `s`, if re-applying the
noise-removal stage to `clean(s)` leaves it unchanged (no new occurrence
was formed by deletion or re-joining), then `clean(s)` contains no
occurrence of any configured noise pattern. -/
theorem c1_amended_noNoise (s : String)
    (h : stripNoiseStr (cleanReviewText s) = cleanReviewText s) :
    ∀ np ∈ noiseList, containsPatStr np (cleanReviewText s) = false :=
  stripNoiseStr_fix_noPat h

theorem c1_amended_noNoise_witness :
    containsPatStr NoisePat.helpful (cleanReviewText "a nice long sentence here") = false :=
  c1_amended_noNoise "a nice long sentence here" (by decide) NoisePat.helpful (by decide)

/-- Claim C3, counterexample: a region/date stamp for a region other than
India or the United Arab Emirates is not removed at all — `clean` returns
the stamp line unchanged. -/
theorem c3_counterexample :
    cleanReviewText "Reviewed in Germany on 4 March 2024 it was great" =
      "Reviewed in Germany on 4 March 2024 it was great" := by
  decide

/-- Claim C3, amended: the cleaner only covers the two configured region
stamps (India and the United Arab Emirates); for the eight configured
patterns, the cleaned text contains no occurrence of any of them whenever
the noise-removal stage leaves `clean(s)` unchanged; and because
`Helpful` is deleted before the vote-count patterns, a numeric vote count
loses only its `helpful` suffix, leaving the rest of the phrase behind. -/
theorem c3_amended (s : String)
    (h : stripNoiseStr (cleanReviewText s) = cleanReviewText s) :
    (containsPatStr NoisePat.stars (cleanReviewText s) = false ∧
     containsPatStr NoisePat.india (cleanReviewText s) = false ∧
     containsPatStr NoisePat.uae (cleanReviewText s) = false ∧
     containsPatStr NoisePat.verified (cleanReviewText s) = false ∧
     containsPatStr NoisePat.helpful (cleanReviewText s) = false ∧
     containsPatStr NoisePat.report (cleanReviewText s) = false ∧
     containsPatStr NoisePat.people (cleanReviewText s) = false ∧
     containsPatStr NoisePat.onePerson (cleanReviewText s) = false) ∧
    cleanReviewText "12 people found this helpful" = "12 people found this" := by
  refine ⟨⟨?_, ?_, ?_, ?_, ?_, ?_, ?_, ?_⟩, by decide⟩
  · exact stripNoiseStr_fix_noPat h NoisePat.stars (by decide)
  · exact stripNoiseStr_fix_noPat h NoisePat.india (by decide)
  · exact stripNoiseStr_fix_noPat h NoisePat.uae (by decide)
  · exact stripNoiseStr_fix_noPat h NoisePat.verified (by decide)
  · exact stripNoiseStr_fix_noPat h NoisePat.helpful (by decide)
  · exact stripNoiseStr_fix_noPat h NoisePat.report (by decide)
  · exact stripNoiseStr_fix_noPat h NoisePat.people (by decide)
  · exact stripNoiseStr_fix_noPat h NoisePat.onePerson (by decide)

theorem c3_amended_witness :
    containsPatStr NoisePat.report (cleanReviewText "the delivery was quick and neat") = false :=
  ((c3_amended "the delivery was quick and neat" (by decide)).1).2.2.2.2.2.1

/-- Claim C9: the `Helpful` and `Report` deletions apply inside ordinary
content words — `unhelpful` is mutilated to `un`, `reported` to `ed` —
and any text containing such an occurrence anywhere is always altered by
the noise-removal stage. -/
theorem c9_word_mutilation :
    cleanReviewText "This product was unhelpful to me overall" =
      "This product was un to me overall" ∧
    cleanReviewText "The issue I reported yesterday was fixed quickly" =
      "The issue I ed yesterday was fixed quickly" ∧
    ∀ s : String,
      (containsPatStr NoisePat.helpful s = true ∨ containsPatStr NoisePat.report s = true) →
      stripNoiseStr s ≠ s := by
  refine ⟨by decide, by decide, ?_⟩
  intro s hs hfix
  rcases hs with hh | hh
  · have h0 := stripNoiseStr_fix_noPat hfix NoisePat.helpful (by decide)
    rw [h0] at hh
    exact Bool.noConfusion hh
  · have h0 := stripNoiseStr_fix_noPat hfix NoisePat.report (by decide)
    rw [h0] at hh
    exact Bool.noConfusion hh

theorem c9_word_mutilation_witness :
    stripNoiseStr "totally unhelpful purchase" ≠ "totally unhelpful purchase" :=
  c9_word_mutilation.2.2 "totally unhelpful purchase" (Or.inl (by decide))

theorem acceptElems_invar : ∀ (es : List Elem) (out : List String),
    ((∀ x ∈ out, 20 < x.length) ∧ out.Nodup) →
    ((∀ x ∈ acceptElems out es, 20 < x.length) ∧ (acceptElems out es).Nodup) := by
  intro es
  induction es with
  | nil => intro out h; exact h
  | cons e es ih =>
    intro out h
    simp only [acceptElems]
    by_cases hc : cleanReviewText (jsTrimStr (elemText e)) ≠ "" ∧
        20 < (cleanReviewText (jsTrimStr (elemText e))).length ∧
        cleanReviewText (jsTrimStr (elemText e)) ∉ out
    · rw [if_pos hc]
      refine ih _ ⟨?_, ?_⟩
      · intro x hx
        rcases List.mem_append.mp hx with hx | hx
        · exact h.1 x hx
        · rw [List.mem_singleton.mp hx]
          exact hc.2.1
      · refine List.Nodup.append h.2 (List.nodup_singleton _) ?_
        intro a ha hb
        rw [List.mem_singleton.mp hb] at ha
        exact hc.2.2 ha
    · rw [if_neg hc]
      exact ih _ h

theorem gatherAux_invar (d : Document) : ∀ (sels : List String) (out : List String),
    ((∀ x ∈ out, 20 < x.length) ∧ out.Nodup) →
    ((∀ x ∈ gatherAux d out sels, 20 < x.length) ∧ (gatherAux d out sels).Nodup) := by
  intro sels
  induction sels with
  | nil => intro out h; exact h
  | cons sel sels ih =>
    intro out h
    cases hq : d.qsa sel with
    | ok els =>
      simp only [gatherAux, hq]
      exact ih _ (acceptElems_invar els out h)
    | error u =>
      simp only [gatherAux, hq]
      exact ih _ h

/-- Claim C2: the collected review sequence contains only strings longer
than 20 characters, is pairwise distinct, and after the caller's
truncation has at most 30 entries which are exactly the first entries of
the collection in discovery order. -/
theorem c2_collect_guarantees (sels : List String) (d : Document) :
    (∀ x ∈ gatherTextFromSelectors sels d, 20 < x.length) ∧
    (gatherTextFromSelectors sels d).Nodup ∧
    (∀ x ∈ (gatherTextFromSelectors sels d).take 30, 20 < x.length) ∧
    ((gatherTextFromSelectors sels d).take 30).length ≤ 30 ∧
    (gatherTextFromSelectors sels d).take 30 ++ (gatherTextFromSelectors sels d).drop 30 =
      gatherTextFromSelectors sels d ∧
    ((gatherTextFromSelectors sels d).take 30).length =
      min 30 (gatherTextFromSelectors sels d).length := by
  have h := gatherAux_invar d sels [] ⟨by simp, List.nodup_nil⟩
  refine ⟨h.1, h.2, ?_, List.length_take_le 30 _, List.take_append_drop 30 _,
    List.length_take 30 _⟩
  intro x hx
  exact h.1 x (List.take_subset 30 _ hx)

theorem gatherAux_filterOk (d : Document) : ∀ (sels : List String) (out : List String),
    gatherAux d out sels = gatherAux d out (sels.filter (selOk d)) := by
  intro sels
  induction sels with
  | nil => intro out; rfl
  | cons sel sels ih =>
    intro out
    cases hq : d.qsa sel with
    | ok els =>
      have hs : selOk d sel = true := by simp [selOk, hq]
      rw [List.filter_cons_of_pos hs]
      simp only [gatherAux, hq]
      exact ih _
    | error u =>
      have hs : ¬ selOk d sel = true := by simp [selOk, hq]
      rw [List.filter_cons_of_neg hs]
      simp only [gatherAux, hq]
      exact ih _

theorem resolveTitle_cons_neg {d : Document} {sel : String}
    (h : titleHit d sel = false) (ss : List String) :
    resolveTitle d (sel :: ss) = resolveTitle d ss := by
  unfold titleHit at h
  cases hq : querySelector d sel with
  | error u => simp only [resolveTitle, hq]
  | ok oe =>
    cases oe with
    | none => simp only [resolveTitle, hq]
    | some el =>
      rw [hq] at h
      simp only [bne_eq_false_iff_eq] at h
      simp [resolveTitle, hq, h]

theorem resolveTitle_cons_pos {d : Document} {sel : String}
    (h : titleHit d sel = true) (ss : List String) :
    resolveTitle d (sel :: ss) = jsTrimStr (firstText d sel) := by
  unfold titleHit at h
  cases hq : querySelector d sel with
  | error u => rw [hq] at h; simp at h
  | ok oe =>
    cases oe with
    | none => rw [hq] at h; simp at h
    | some el =>
      rw [hq] at h
      simp only [bne_iff_ne, ne_eq, decide_eq_true_eq] at h
      simp only [resolveTitle, hq, firstText, if_pos h]

/-- Claim C6: a selector whose query throws is skipped, for review
collection and for title resolution alike: the output equals the output
over the non-failing selectors alone, and no per-selector failure
reaches the caller. -/
theorem c6_selector_failures_absorbed (sels : List String) (d : Document) :
    gatherTextFromSelectors sels d = gatherTextFromSelectors (sels.filter (selOk d)) d ∧
    resolveTitle d sels = resolveTitle d (sels.filter (selOk d)) := by
  constructor
  · exact gatherAux_filterOk d sels []
  · induction sels with
    | nil => rfl
    | cons sel ss ih =>
      cases hh : titleHit d sel with
      | true =>
        have hs : selOk d sel = true := by
          unfold titleHit at hh
          unfold selOk querySelector at *
          cases hq : d.qsa sel with
          | ok els => rfl
          | error u => rw [hq] at hh; simp [Except.map] at hh
        rw [List.filter_cons_of_pos hs, resolveTitle_cons_pos hh,
          resolveTitle_cons_pos hh]
      | false =>
        by_cases hs : selOk d sel = true
        · rw [List.filter_cons_of_pos hs, resolveTitle_cons_neg hh,
            resolveTitle_cons_neg hh]
          exact ih
        · rw [List.filter_cons_of_neg hs, resolveTitle_cons_neg hh]
          exact ih

/-- Claim C5: the title resolver returns the trimmed text of the first
selector in order whose match yields nonempty text, the empty string when
no selector does (a total function, never a failure), and on the
spec's example document with only `h1` carrying "Wireless Mouse" it
returns "Wireless Mouse". -/
theorem c5_title_resolution :
    (∀ (sels : List String) (d : Document),
      (sels.find? (titleHit d) = none → resolveTitle d sels = "") ∧
      (∀ s, sels.find? (titleHit d) = some s →
        resolveTitle d sels = jsTrimStr (firstText d s))) ∧
    resolveTitle exDoc ["#productTitle", "h1"] = "Wireless Mouse" := by
  refine ⟨?_, by decide⟩
  intro sels d
  induction sels with
  | nil => exact ⟨fun _ => rfl, fun s hs => by simp at hs⟩
  | cons sel ss ih =>
    constructor
    · intro hn
      cases hh : titleHit d sel with
      | true =>
        rw [List.find?_cons_of_pos _ hh] at hn
        exact Option.noConfusion hn
      | false =>
        rw [List.find?_cons_of_neg _ (by simp [hh])] at hn
        rw [resolveTitle_cons_neg hh ss]
        exact ih.1 hn
    · intro s hs
      cases hh : titleHit d sel with
      | true =>
        rw [List.find?_cons_of_pos _ hh] at hs
        cases hs
        exact resolveTitle_cons_pos hh ss
      | false =>
        rw [List.find?_cons_of_neg _ (by simp [hh])] at hs
        rw [resolveTitle_cons_neg hh ss]
        exact ih.2 s hs

theorem c5_title_resolution_witness :
    resolveTitle exDoc ["#productTitle", "h1"] = jsTrimStr (firstText exDoc "h1") :=
  (c5_title_resolution.1 ["#productTitle", "h1"] exDoc).2 "h1" (by decide)

theorem gatherAux_allEmpty (d : Document) : ∀ (sels : List String) (out : List String),
    (∀ s ∈ sels, d.qsa s = .ok []) → gatherAux d out sels = out := by
  intro sels
  induction sels with
  | nil => intro out _; rfl
  | cons sel ss ih =>
    intro out h
    have hq : d.qsa sel = .ok [] := h sel (by simp)
    simp only [gatherAux, hq]
    exact ih out (fun s hs => h s (by simp [hs]))

/-- Claim C7: when no configured review selector matches any element, the
injected scrape function returns an empty review list together with the
resolved title and the source location, as an ordinary value — never a
failure. -/
theorem c7_zero_reviews_valid (d : Document) (loc : String)
    (h : ∀ s ∈ reviewSelectors, d.qsa s = .ok []) :
    scrapePage d loc = ⟨[], resolveTitle d titleSelectors, loc⟩ := by
  unfold scrapePage gatherTextFromSelectors
  rw [gatherAux_allEmpty d reviewSelectors [] h]
  rfl

theorem c7_zero_reviews_valid_witness :
    scrapePage docEmpty "https://example.com/item" =
      ⟨[], "", "https://example.com/item"⟩ := by
  have h := c7_zero_reviews_valid docEmpty "https://example.com/item" (fun s _ => rfl)
  rw [h]
  decide

theorem replW_cons_match (p : List Char → Option Nat) (rep : List Char) (f : Nat)
    (c : Char) (cs : List Char) (n : Nat) (hp : p (c :: cs) = some (n + 1)) :
    replW p rep (f + 1) (c :: cs) = rep ++ replW p rep f (cs.drop n) := by
  simp only [replW, hp]

theorem replW_cons_stay (p : List Char → Option Nat) (rep : List Char) (f : Nat)
    (c : Char) (cs : List Char) (hp : p (c :: cs) = none) :
    replW p rep (f + 1) (c :: cs) = c :: replW p rep f cs := by
  simp only [replW, hp]

theorem drop_len_takeWhile (q : Char → Bool) : ∀ l : List Char,
    l.drop (l.takeWhile q).length = l.dropWhile q := by
  intro l
  induction l with
  | nil => rfl
  | cons c cs ih =>
    cases hq : q c with
    | true => simp [List.takeWhile_cons, List.dropWhile_cons, hq, ih]
    | false => simp [List.takeWhile_cons, List.dropWhile_cons, hq]

theorem collapse2F_cons_run (f : Nat) (c b : Char) (rest : List Char)
    (hw : (jsWs c && jsWs b) = true) :
    collapse2F (f + 1) (c :: b :: rest) = ' ' :: collapse2F f (rest.dropWhile jsWs) := by
  have hcb : jsWs c = true ∧ jsWs b = true := by simpa using hw
  simp [collapse2F, List.head?, List.dropWhile_cons, hcb.1, hcb.2]

theorem collapse2F_cons_stay (f : Nat) (c b : Char) (rest : List Char)
    (hw : (jsWs c && jsWs b) = false) :
    collapse2F (f + 1) (c :: b :: rest) = c :: collapse2F f (b :: rest) := by
  simp only [collapse2F, List.head?, hw]
  simp

theorem collapseAgree : ∀ (f : Nat) (l : List Char), l.length ≤ f →
    replW wsRunAt [' '] f l = collapse2F f l := by
  intro f
  induction f with
  | zero =>
    intro l hl
    have he : l = [] := List.length_eq_zero.mp (Nat.le_zero.mp hl)
    subst he; rfl
  | succ f ih =>
    intro l hl
    cases l with
    | nil => rfl
    | cons c cs =>
      cases cs with
      | nil =>
        have hrw : wsRunAt [c] = none := rfl
        rw [replW_cons_stay _ _ _ _ _ hrw, replW_empty]
        simp only [collapse2F, List.head?, Bool.and_false]
        simp
      | cons b rest =>
        have hlr : (b :: rest).length ≤ f := by
          simp only [List.length_cons] at hl ⊢
          omega
        cases hw : jsWs c && jsWs b with
        | true =>
          have hrw : wsRunAt (c :: b :: rest) =
              some (((rest.takeWhile jsWs).length + 1) + 1) := by
            simp only [wsRunAt, hw, if_true]
          rw [replW_cons_match _ _ _ _ _ _ hrw, collapse2F_cons_run _ _ _ _ hw]
          rw [List.drop_succ_cons, drop_len_takeWhile]
          have hlen : (rest.dropWhile jsWs).length ≤ f := by
            have h1 : (rest.dropWhile jsWs).length ≤ rest.length :=
              List.Sublist.length_le (List.dropWhile_sublist jsWs)
            simp only [List.length_cons] at hlr
            omega
          rw [ih _ hlen]
          rfl
        | false =>
          have hrw : wsRunAt (c :: b :: rest) = none := by
            simp only [wsRunAt, hw]
            simp
          rw [replW_cons_stay _ _ _ _ _ hrw, collapse2F_cons_stay _ _ _ _ hw,
            ih _ hlr]

/-- Claim C8, counterexample: a lone tab is a whitespace run of length
one; the source's `\s\s+` collapse leaves it as a tab, so the output is
not "every run of whitespace collapsed to one space" as claimed. -/
theorem c8_counterexample :
    cleanReviewText "aaaa\tbbbb cccc dddd" ≠ specCleanDesc "aaaa\tbbbb cccc dddd" := by
  decide

/-- Claim C8, amended: `clean(s)` consists exactly of the lines of the
noise-stripped text whose trimmed length exceeds 15 and whose trimmed
form contains a space, in order, joined with a single space, with every
run of two or more whitespace characters collapsed to one space (a lone
whitespace character is kept as it is) and the ends trimmed; the claim's
concrete example holds. -/
theorem c8_amended_shape :
    (∀ s : String, cleanReviewText s = specCleanFixed s) ∧
    cleanReviewText "4.5 out of 5 stars\nVerified Purchase\nThis product exceeded my expectations in every way possible." =
      "This product exceeded my expectations in every way possible." := by
  refine ⟨?_, by decide⟩
  intro s
  unfold cleanReviewText specCleanFixed
  by_cases hs : s = ""
  · rw [if_pos hs, if_pos hs]
  · rw [if_neg hs, if_neg hs]
    unfold cleanCore replaceAll
    rw [collapseAgree _ _ (Nat.le_refl _)]

theorem replaceAll_append_pass (p : List Char → Option Nat) (rep : List Char) :
    ∀ (a b : List Char),
      (∀ a₁ a₂ b', a = a₁ ++ a₂ → a₂ ≠ [] → p (a₂ ++ b') = none) →
      replaceAll p rep (a ++ b) = a ++ replaceAll p rep b := by
  intro a
  induction a with
  | nil => intro b _; rfl
  | cons c a' ih =>
    intro b h
    have hp : p (c :: (a' ++ b)) = none := by
      have h0 := h [] (c :: a') b rfl (by simp)
      simpa using h0
    have step : replaceAll p rep ((c :: a') ++ b) =
        c :: replW p rep (a' ++ b).length (a' ++ b) := by
      show replW p rep ((c :: a') ++ b).length ((c :: a') ++ b) = _
      rw [List.cons_append, List.length_cons]
      exact replW_cons_stay p rep _ c (a' ++ b) hp
    rw [step]
    have ih' := ih b (fun a₁ a₂ b' ha hne => h (c :: a₁) a₂ b' (by rw [ha]; rfl) hne)
    rw [show replW p rep (a' ++ b).length (a' ++ b) = replaceAll p rep (a' ++ b) from rfl]
    rw [ih']
    rfl

theorem replaceAll_killAll (p : List Char → Option Nat) :
    ∀ l : List Char, p l = some l.length → l ≠ [] → replaceAll p [] l = [] := by
  intro l hp hne
  cases l with
  | nil => exact absurd rfl hne
  | cons c cs =>
    have hp' : p (c :: cs) = some (cs.length + 1) := by simpa using hp
    have step : replaceAll p [] (c :: cs) =
        [] ++ replW p [] cs.length (cs.drop cs.length) := by
      show replW p [] (c :: cs).length (c :: cs) = _
      rw [List.length_cons]
      exact replW_cons_match p [] _ c cs cs.length hp'
    rw [step, List.drop_length, replW_empty]
    rfl

theorem mem_replW_nil (p : List Char → Option Nat) (f : Nat) (l : List Char)
    (c : Char) (h : c ∈ replW p [] f l) : c ∈ l :=
  (replW_sub p f l).subset h

theorem ciStarts_append_of : ∀ (pat l r : List Char),
    ciStarts pat l = true → ciStarts pat (l ++ r) = true := by
  intro pat
  induction pat with
  | nil => intro l r _; rfl
  | cons p ps ih =>
    intro l r h
    cases l with
    | nil => simp [ciStarts] at h
    | cons c cs =>
      simp only [ciStarts] at h
      have h12 : ciEq p c = true ∧ ciStarts ps cs = true := by simpa using h
      simp [List.cons_append, ciStarts, h12.1, ih cs r h12.2]

theorem takeWhile_of_all (q : Char → Bool) : ∀ l : List Char,
    (∀ c ∈ l, q c = true) → l.takeWhile q = l := by
  intro l
  induction l with
  | nil => intro _; rfl
  | cons c cs ih =>
    intro h
    rw [List.takeWhile_cons, if_pos (h c (by simp))]
    rw [ih (fun x hx => h x (by simp [hx]))]

theorem ciStarts_false_of_conflict : ∀ (pat a b : List Char),
    ciConflict pat a = true → ciStarts pat (a ++ b) = false := by
  intro pat
  induction pat with
  | nil => intro a b h; simp [ciConflict] at h
  | cons p ps ih =>
    intro a b h
    cases a with
    | nil => simp [ciConflict] at h
    | cons c cs =>
      simp only [ciConflict] at h
      simp only [List.cons_append, ciStarts]
      cases hc : ciEq p c with
      | false => simp [hc]
      | true =>
        rw [hc] at h
        simp only [Bool.not_true, Bool.false_or] at h
        simp [hc, ih cs b h]

theorem starsAt_cons_none (c : Char) (l : List Char) (h : c.isDigit = false) :
    starsAt (c :: l) = none := by
  cases l with
  | nil => rfl
  | cons b l2 =>
    cases l2 with
    | nil => rfl
    | cons e l3 =>
      simp [starsAt, h]

theorem stampAt_none_of_conflict (pre a b : List Char) (h : ciConflict pre a = true) :
    stampAt pre (a ++ b) = none := by
  simp [stampAt, ciStarts_false_of_conflict pre a b h]

theorem starsPass_through (pre : List Char) (hnd : ∀ c ∈ pre, c.isDigit = false)
    (b : List Char) :
    replaceAll starsAt [] (pre ++ b) = pre ++ replaceAll starsAt [] b := by
  apply replaceAll_append_pass
  intro a₁ a₂ b' ha hne
  cases a₂ with
  | nil => exact absurd rfl hne
  | cons c cs =>
    have hc : c ∈ pre := by
      rw [ha]
      exact List.mem_append.mpr (Or.inr (by simp))
    rw [List.cons_append]
    exact starsAt_cons_none c (cs ++ b') (hnd c hc)

theorem stampAt_full (pre l : List Char) (hself : ciStarts pre pre = true)
    (hl : ∀ c ∈ l, lineTerm c = false) :
    stampAt pre (pre ++ l) = some (pre ++ l).length := by
  have h1 : ciStarts pre (pre ++ l) = true := ciStarts_append_of pre pre l hself
  simp only [stampAt, h1, if_true]
  rw [List.drop_left]
  rw [takeWhile_of_all _ l (fun c hc => by simp [hl c hc])]
  simp [List.length_append]

theorem stampPass_through (pre pat : List Char)
    (hconf : ∀ a₂, (∃ a₁, pre = a₁ ++ a₂) → a₂ ≠ [] → ciConflict pat a₂ = true)
    (b : List Char) :
    replaceAll (stampAt pat) [] (pre ++ b) = pre ++ replaceAll (stampAt pat) [] b := by
  apply replaceAll_append_pass
  intro a₁ a₂ b' ha hne
  exact stampAt_none_of_conflict pat a₂ b' (hconf a₂ ⟨a₁, ha⟩ hne)

theorem uae_india_conflict : ∀ a₂ : List Char, (∃ a₁, uaePre = a₁ ++ a₂) → a₂ ≠ [] →
    ciConflict indiaPre a₂ = true := by
  intro a₂ hex hne
  obtain ⟨a₁, ha⟩ := hex
  have hmem : a₂ ∈ uaePre.tails := by
    rw [List.mem_tails]
    exact ⟨a₁, ha.symm⟩
  have hall : uaePre.tails.all (fun t => t.isEmpty || ciConflict indiaPre t) = true := by
    set_option maxRecDepth 4096 in decide
  have h2 := List.all_eq_true.mp hall a₂ hmem
  cases a₂ with
  | nil => exact absurd rfl hne
  | cons c cs => simpa using h2

theorem stripNoise_stampLine_india (rest : List Char)
    (hr : ∀ c ∈ rest, lineTerm c = false) :
    stripNoise (indiaPre ++ rest) = [] := by
  have hA : replaceAll (matchOf NoisePat.stars) [] (indiaPre ++ rest) =
      indiaPre ++ replaceAll starsAt [] rest :=
    starsPass_through indiaPre (by decide) rest
  have hr1 : ∀ c ∈ replaceAll starsAt [] rest, lineTerm c = false :=
    fun c hc => hr c (mem_replW_nil starsAt rest.length rest c hc)
  have hB : replaceAll (matchOf NoisePat.india) []
      (indiaPre ++ replaceAll starsAt [] rest) = [] := by
    apply replaceAll_killAll
    · exact stampAt_full indiaPre _ (by decide) hr1
    · simp [indiaPre]
  show stripL noiseList (indiaPre ++ rest) = []
  unfold noiseList
  simp only [stripL, List.foldl_cons, List.foldl_nil]
  rw [hA, hB]
  rfl

theorem stripNoise_stampLine_uae (rest : List Char)
    (hr : ∀ c ∈ rest, lineTerm c = false) :
    stripNoise (uaePre ++ rest) = [] := by
  have hA : replaceAll (matchOf NoisePat.stars) [] (uaePre ++ rest) =
      uaePre ++ replaceAll starsAt [] rest :=
    starsPass_through uaePre (by decide) rest
  have hr1 : ∀ c ∈ replaceAll starsAt [] rest, lineTerm c = false :=
    fun c hc => hr c (mem_replW_nil starsAt rest.length rest c hc)
  have hB : replaceAll (matchOf NoisePat.india) []
      (uaePre ++ replaceAll starsAt [] rest) =
      uaePre ++ replaceAll (stampAt indiaPre) [] (replaceAll starsAt [] rest) :=
    stampPass_through uaePre indiaPre uae_india_conflict _
  have hr2 : ∀ c ∈ replaceAll (stampAt indiaPre) [] (replaceAll starsAt [] rest),
      lineTerm c = false :=
    fun c hc => hr1 c (mem_replW_nil _ _ _ c hc)
  have hC : replaceAll (matchOf NoisePat.uae) []
      (uaePre ++ replaceAll (stampAt indiaPre) [] (replaceAll starsAt [] rest)) = [] := by
    apply replaceAll_killAll
    · exact stampAt_full uaePre _ (by decide) hr2
    · simp [uaePre]
  show stripL noiseList (uaePre ++ rest) = []
  unfold noiseList
  simp only [stripL, List.foldl_cons, List.foldl_nil]
  rw [hA, hB, hC]
  rfl

theorem cleanCore_of_strip_nil {l : List Char} (h : stripNoise l = []) :
    cleanCore l = [] := by
  unfold cleanCore
  rw [h]
  rfl

theorem mkString_ne_empty_of_append {a b : List Char} (ha : a ≠ []) :
    String.mk (a ++ b) ≠ "" := by
  intro h
  have h2 := congrArg String.data h
  rw [stringDataMk] at h2
  rw [show ("" : String).data = [] from rfl] at h2
  rcases List.append_eq_nil.mp h2 with ⟨h4, _⟩
  exact absurd h4 ha

/-- Claim C10: the two region/date-stamp patterns consume everything from
the start of the stamp through the end of the line, so a line that starts
with a stamp and continues with genuine review text is removed whole —
for a stamp-plus-text line alone the cleaner yields the empty string, and
inside a multi-line review exactly that line disappears. -/
theorem c10_stamp_eats_line :
    (∀ rest : List Char, (∀ c ∈ rest, lineTerm c = false) →
      cleanReviewText (String.mk (indiaPre ++ rest)) = "" ∧
      cleanReviewText (String.mk (uaePre ++ rest)) = "") ∧
    cleanReviewText "Great product overall honestly\nReviewed in India on 3 March 2024 but this part is review text\nWould buy again for sure" =
      "Great product overall honestly Would buy again for sure" := by
  refine ⟨?_, by set_option maxRecDepth 8192 in decide⟩
  intro rest hr
  constructor
  · unfold cleanReviewText
    rw [if_neg (mkString_ne_empty_of_append (by decide)), stringDataMk]
    rw [cleanCore_of_strip_nil (stripNoise_stampLine_india rest hr)]
  · unfold cleanReviewText
    rw [if_neg (mkString_ne_empty_of_append (by decide)), stringDataMk]
    rw [cleanCore_of_strip_nil (stripNoise_stampLine_uae rest hr)]

theorem c10_stamp_eats_line_witness :
    cleanReviewText (String.mk (indiaPre ++ "9 May 2024 superb quality and fast delivery".data)) = "" :=
  (c10_stamp_eats_line.1 "9 May 2024 superb quality and fast delivery".data (by decide)).1

theorem dropWhile_head_false (q : Char → Bool) : ∀ (l : List Char) (d : Char)
    (dd : List Char), l.dropWhile q = d :: dd → q d = false := by
  intro l
  induction l with
  | nil => intro d dd h; simp at h
  | cons c cs ih =>
    intro d dd h
    rw [List.dropWhile_cons] at h
    by_cases hq : q c = true
    · rw [if_pos hq] at h
      exact ih d dd h
    · rw [if_neg hq] at h
      injection h with h1 _
      rw [← h1]
      simpa using hq

theorem dropWhile_id_of_head (q : Char → Bool) (l : List Char)
    (h : ∀ c, l.head? = some c → q c = false) : l.dropWhile q = l := by
  cases l with
  | nil => rfl
  | cons a as =>
    rw [List.dropWhile_cons, if_neg]
    have h0 := h a rfl
    simp [h0]

theorem dropWhile_decomp (q : Char → Bool) : ∀ l : List Char,
    ∃ t, l = t ++ l.dropWhile q := by
  intro l
  induction l with
  | nil => exact ⟨[], rfl⟩
  | cons c cs ih =>
    cases hq : q c with
    | true =>
      obtain ⟨t, ht⟩ := ih
      refine ⟨c :: t, ?_⟩
      rw [List.dropWhile_cons, if_pos hq, List.cons_append, ← ht]
    | false =>
      refine ⟨[], ?_⟩
      rw [List.dropWhile_cons, if_neg (by simp [hq])]
      rfl

theorem jsTrim_of_heads (l : List Char)
    (h1 : ∀ c, l.head? = some c → jsWs c = false)
    (h2 : ∀ c, l.reverse.head? = some c → jsWs c = false) :
    jsTrim l = l := by
  unfold jsTrim
  rw [dropWhile_id_of_head jsWs l h1]
  rw [dropWhile_id_of_head jsWs l.reverse h2]
  exact List.reverse_reverse l

theorem jsTrim_idem (l : List Char) : jsTrim (jsTrim l) = jsTrim l := by
  apply jsTrim_of_heads
  · intro c hc
    rw [show jsTrim l = ((l.dropWhile jsWs).reverse.dropWhile jsWs).reverse from rfl,
      List.head?_reverse] at hc
    obtain ⟨w, hw⟩ := dropWhile_decomp jsWs (l.dropWhile jsWs).reverse
    cases hd : (l.dropWhile jsWs).reverse.dropWhile jsWs with
    | nil => rw [hd] at hc; simp at hc
    | cons d dd =>
      rw [hd] at hc hw
      have hlast : (l.dropWhile jsWs).head? = some c := by
        rw [← List.getLast?_reverse, hw, List.getLast?_append, hc]
        rfl
      cases he : l.dropWhile jsWs with
      | nil => rw [he] at hlast; simp at hlast
      | cons e ee =>
        rw [he] at hlast
        have hec : e = c := by simpa using hlast
        rw [← hec]
        exact dropWhile_head_false jsWs l e ee he
  · intro c hc
    rw [show jsTrim l = ((l.dropWhile jsWs).reverse.dropWhile jsWs).reverse from rfl,
      List.reverse_reverse] at hc
    cases hd : (l.dropWhile jsWs).reverse.dropWhile jsWs with
    | nil => rw [hd] at hc; simp at hc
    | cons d dd =>
      rw [hd] at hc
      have hdc : d = c := by simpa using hc
      rw [← hdc]
      exact dropWhile_head_false jsWs _ d dd hd

theorem jsTrim_subset (x : List Char) : ∀ c, c ∈ jsTrim x → c ∈ x := by
  intro c hc
  unfold jsTrim at hc
  rw [List.mem_reverse] at hc
  have h2 := (List.dropWhile_sublist jsWs).subset hc
  rw [List.mem_reverse] at h2
  exact (List.dropWhile_sublist jsWs).subset h2

theorem jsTrim_infix (l : List Char) : ∃ u v, l = u ++ (jsTrim l ++ v) := by
  obtain ⟨u, hu⟩ := dropWhile_decomp jsWs l
  obtain ⟨w, hw⟩ := dropWhile_decomp jsWs (l.dropWhile jsWs).reverse
  refine ⟨u, w.reverse, ?_⟩
  have hA : l.dropWhile jsWs = jsTrim l ++ w.reverse := by
    have h1 := congrArg List.reverse hw
    rw [List.reverse_reverse, List.reverse_append] at h1
    exact h1
  calc l = u ++ l.dropWhile jsWs := hu
    _ = u ++ (jsTrim l ++ w.reverse) := by rw [hA]

theorem noTwoWs_tail {a : Char} {l : List Char} (h : noTwoWs (a :: l) = true) :
    noTwoWs l = true := by
  cases l with
  | nil => rfl
  | cons b rest =>
    simp only [noTwoWs] at h
    exact (by simpa using h : (!(jsWs a && jsWs b)) = true ∧ noTwoWs (b :: rest) = true).2

theorem noTwoWs_append_right : ∀ {x y : List Char},
    noTwoWs (x ++ y) = true → noTwoWs y = true := by
  intro x
  induction x with
  | nil => intro y h; exact h
  | cons a x' ih =>
    intro y h
    rw [List.cons_append] at h
    exact ih (noTwoWs_tail h)

theorem noTwoWs_append_left : ∀ (x y : List Char),
    noTwoWs (x ++ y) = true → noTwoWs x = true := by
  intro x
  induction x with
  | nil => intro y _; rfl
  | cons a x' ih =>
    intro y h
    cases x' with
    | nil => rfl
    | cons b x'' =>
      rw [List.cons_append, List.cons_append] at h
      simp only [noTwoWs] at h
      have h2 : (!(jsWs a && jsWs b)) = true ∧ noTwoWs (b :: (x'' ++ y)) = true := by
        simpa using h
      have h3 : noTwoWs (b :: x'') = true := by
        have := ih y (by rw [List.cons_append]; exact h2.2)
        exact this
      simp only [noTwoWs]
      simp [h2.1, h3]

theorem noTwoWs_jsTrim {x : List Char} (h : noTwoWs x = true) :
    noTwoWs (jsTrim x) = true := by
  obtain ⟨u, v, huv⟩ := jsTrim_infix x
  rw [huv] at h
  exact noTwoWs_append_left _ v (noTwoWs_append_right h)

theorem collapse_id_of_noTwoWs : ∀ (f : Nat) (l : List Char), noTwoWs l = true →
    replW wsRunAt [' '] f l = l := by
  intro f
  induction f with
  | zero => intro l _; cases l <;> rfl
  | succ f ih =>
    intro l h
    cases l with
    | nil => rfl
    | cons a as =>
      cases as with
      | nil =>
        rw [replW_cons_stay _ _ _ _ _ rfl, replW_empty]
      | cons b rest =>
        simp only [noTwoWs] at h
        have h2 : (!(jsWs a && jsWs b)) = true ∧ noTwoWs (b :: rest) = true := by
          simpa using h
        have hw : (jsWs a && jsWs b) = false := by
          cases hcc : (jsWs a && jsWs b) with
          | false => rfl
          | true => rw [hcc] at h2; simp at h2
        have hrw : wsRunAt (a :: b :: rest) = none := by
          simp [wsRunAt, hw]
        rw [replW_cons_stay _ _ _ _ _ hrw, ih (b :: rest) h2.2]

theorem collapse_head (f : Nat) (b : Char) (rest : List Char) (hb : jsWs b = false) :
    (replW wsRunAt [' '] f (b :: rest)).head? = some b := by
  cases f with
  | zero => rfl
  | succ f =>
    have hrw : wsRunAt (b :: rest) = none := by
      cases rest with
      | nil => rfl
      | cons d rr => simp [wsRunAt, hb]
    rw [replW_cons_stay _ _ _ _ _ hrw]
    rfl

theorem noTwoWs_collapse : ∀ (f : Nat) (l : List Char), l.length ≤ f →
    noTwoWs (replW wsRunAt [' '] f l) = true := by
  intro f
  induction f with
  | zero =>
    intro l hl
    have he : l = [] := List.length_eq_zero.mp (Nat.le_zero.mp hl)
    subst he
    rfl
  | succ f ih =>
    intro l hl
    cases l with
    | nil => rfl
    | cons a as =>
      cases as with
      | nil =>
        rw [replW_cons_stay _ _ _ _ _ rfl, replW_empty]
        rfl
      | cons b rest =>
        cases hw : jsWs a && jsWs b with
        | true =>
          have hrw : wsRunAt (a :: b :: rest) =
              some (((rest.takeWhile jsWs).length + 1) + 1) := by
            simp only [wsRunAt, hw, if_true]
          rw [replW_cons_match _ _ _ _ _ _ hrw, List.drop_succ_cons, drop_len_takeWhile]
          have hlen : (rest.dropWhile jsWs).length ≤ f := by
            have h1 : (rest.dropWhile jsWs).length ≤ rest.length :=
              List.Sublist.length_le (List.dropWhile_sublist jsWs)
            simp only [List.length_cons] at hl
            omega
          have hrec := ih (rest.dropWhile jsWs) hlen
          cases hd : rest.dropWhile jsWs with
          | nil =>
            rw [replW_empty]
            rfl
          | cons d dd =>
            have hdws : jsWs d = false := dropWhile_head_false jsWs rest d dd hd
            have hh := collapse_head f d dd hdws
            rw [hd] at hrec
            cases hout : replW wsRunAt [' '] f (d :: dd) with
            | nil => rfl
            | cons x xs =>
              rw [hout] at hrec hh
              have hx : x = d := by simpa using hh
              subst hx
              simp only [List.singleton_append, noTwoWs, hdws, Bool.and_false,
                Bool.not_false, Bool.true_and]
              exact hrec
        | false =>
          have hrw : wsRunAt (a :: b :: rest) = none := by
            simp [wsRunAt, hw]
          rw [replW_cons_stay _ _ _ _ _ hrw]
          have hrec := ih (b :: rest) (by simp only [List.length_cons] at hl ⊢; omega)
          cases hwa : jsWs a with
          | false =>
            cases hout : replW wsRunAt [' '] f (b :: rest) with
            | nil => rfl
            | cons x xs =>
              rw [hout] at hrec
              simp only [noTwoWs, hwa, Bool.false_and, Bool.not_false, Bool.true_and]
              exact hrec
          | true =>
            have hwb : jsWs b = false := by
              cases hbb : jsWs b with
              | false => rfl
              | true => rw [hwa, hbb] at hw; simp at hw
            have hh := collapse_head f b rest hwb
            cases hout : replW wsRunAt [' '] f (b :: rest) with
            | nil => rfl
            | cons x xs =>
              rw [hout] at hrec hh
              have hx : x = b := by simpa using hh
              subst hx
              simp only [noTwoWs, hwb, Bool.and_false, Bool.not_false, Bool.true_and]
              exact hrec

theorem mem_splitNl_no_nl : ∀ (l : List Char) (line : List Char),
    line ∈ splitNl l → '\n' ∉ line := by
  intro l
  induction l with
  | nil =>
    intro line hl
    simp only [splitNl, List.mem_singleton] at hl
    rw [hl]
    simp
  | cons c cs ih =>
    intro line hl
    cases hc : c == '\n' with
    | true =>
      simp only [splitNl, hc, if_true] at hl
      rcases List.mem_cons.mp hl with h | h
      · rw [h]; simp
      · exact ih line h
    | false =>
      have hcne : c ≠ '\n' := by simpa using hc
      simp only [splitNl, hc] at hl
      rw [if_neg (by simp [hc])] at hl
      cases hsp : splitNl cs with
      | nil =>
        rw [hsp] at hl
        simp only [List.mem_singleton] at hl
        rw [hl]
        intro hmem
        rcases List.mem_singleton.mp hmem with h
        exact hcne h.symm
      | cons hd tl =>
        rw [hsp] at hl
        rcases List.mem_cons.mp hl with h | h
        · rw [h]
          intro hmem
          rcases List.mem_cons.mp hmem with h2 | h2
          · exact hcne h2.symm
          · exact ih hd (by rw [hsp]; exact List.mem_cons_self hd tl) h2
        · exact ih line (by rw [hsp]; exact List.mem_cons_of_mem hd h)

theorem splitNl_no_nl : ∀ l : List Char, '\n' ∉ l → splitNl l = [l] := by
  intro l
  induction l with
  | nil => intro _; rfl
  | cons c cs ih =>
    intro h
    have hc : (c == '\n') = false := by
      have h1 : c ≠ '\n' := fun he => h (by simp [he])
      simpa using h1
    have hcs : '\n' ∉ cs := fun hm => h (by simp [hm])
    simp only [splitNl, hc]
    rw [if_neg (by simp [hc]), ih hcs]

theorem mem_joinSp : ∀ (ls : List (List Char)) (c : Char), c ∈ joinSp ls →
    c = ' ' ∨ ∃ line, line ∈ ls ∧ c ∈ line := by
  intro ls
  induction ls with
  | nil => intro c hc; simp [joinSp] at hc
  | cons l ls ih =>
    intro c hc
    cases ls with
    | nil =>
      right
      exact ⟨l, by simp, hc⟩
    | cons l2 ls2 =>
      have hj : joinSp (l :: l2 :: ls2) = l ++ ' ' :: joinSp (l2 :: ls2) := rfl
      rw [hj] at hc
      rcases List.mem_append.mp hc with h | h
      · right; exact ⟨l, by simp, h⟩
      · rcases List.mem_cons.mp h with h | h
        · left; exact h
        · rcases ih c h with h | ⟨line, hl, hc2⟩
          · left; exact h
          · right
            exact ⟨line, List.mem_cons_of_mem l hl, hc2⟩

theorem mem_replW_sp (p : List Char → Option Nat) : ∀ (f : Nat) (l : List Char)
    (c : Char), c ∈ replW p [' '] f l → c = ' ' ∨ c ∈ l := by
  intro f
  induction f with
  | zero =>
    intro l c hc
    cases l with
    | nil => simp [replW] at hc
    | cons a as => right; exact hc
  | succ f ih =>
    intro l c hc
    cases l with
    | nil => simp [replW] at hc
    | cons a as =>
      cases hp : p (a :: as) with
      | none =>
        rw [replW_cons_stay _ _ _ _ _ hp] at hc
        rcases List.mem_cons.mp hc with h | h
        · right; rw [h]; simp
        · rcases ih as c h with h | h
          · left; exact h
          · right; exact List.mem_cons_of_mem a h
      | some n =>
        cases n with
        | zero =>
          have hs : replW p [' '] (f + 1) (a :: as) = a :: replW p [' '] f as := by
            simp only [replW, hp]
          rw [hs] at hc
          rcases List.mem_cons.mp hc with h | h
          · right; rw [h]; simp
          · rcases ih as c h with h | h
            · left; exact h
            · right; exact List.mem_cons_of_mem a h
        | succ m =>
          rw [replW_cons_match _ _ _ _ _ _ hp] at hc
          rcases List.mem_append.mp hc with h | h
          · left; simpa using h
          · rcases ih _ c h with h | h
            · left; exact h
            · right; exact List.mem_cons_of_mem a (List.drop_subset m as h)

theorem cleanCore_no_nl (l : List Char) : '\n' ∉ cleanCore l := by
  intro h
  unfold cleanCore at h
  have h1 := jsTrim_subset _ '\n' h
  have h2 := mem_replW_sp wsRunAt _ _ '\n' h1
  rcases h2 with h2 | h2
  · exact absurd h2 (by decide)
  · rcases mem_joinSp _ '\n' h2 with h3 | ⟨line, hl, hc3⟩
    · exact absurd h3 (by decide)
    · have h4 := (List.mem_filter.mp hl).1
      exact mem_splitNl_no_nl _ line h4 hc3

theorem cleanCore_trimmed (l : List Char) : jsTrim (cleanCore l) = cleanCore l := by
  unfold cleanCore
  exact jsTrim_idem _

theorem cleanCore_noTwoWs (l : List Char) : noTwoWs (cleanCore l) = true := by
  unfold cleanCore
  apply noTwoWs_jsTrim
  exact noTwoWs_collapse _ _ (Nat.le_refl _)

theorem mkDataEq (t : String) : String.mk t.data = t := by
  cases t
  rfl

theorem cleanReviewText_again {t : String}
    (h1 : stripNoise t.data = t.data)
    (h2 : '\n' ∉ t.data)
    (h3 : jsTrim t.data = t.data)
    (h4 : noTwoWs t.data = true)
    (h5 : 15 < t.data.length)
    (h6 : t.data.contains ' ' = true)
    (hne : t ≠ "") :
    cleanReviewText t = t := by
  have hk : keepLine t.data = true := by
    unfold keepLine
    rw [h3]
    rw [decide_eq_true h5, h6]
    rfl
  unfold cleanReviewText
  rw [if_neg hne]
  unfold cleanCore
  rw [h1, splitNl_no_nl t.data h2]
  have hfil : List.filter keepLine [t.data] = [t.data] := by
    rw [List.filter_cons, if_pos hk]
    rfl
  rw [hfil]
  have hjoin : joinSp [t.data] = t.data := rfl
  rw [hjoin]
  have hcol : replaceAll wsRunAt [' '] t.data = t.data :=
    collapse_id_of_noTwoWs t.data.length t.data h4
  rw [hcol, h3]

/-- Claim C4, counterexample: collapsing internal whitespace runs can
push a retained line below the 16-character threshold, so `clean` is not
idempotent even though no noise pattern is reintroduced — the claim's
proviso holds, yet a second `clean` erases the text. -/
theorem c4_counterexample :
    stripNoiseStr (cleanReviewText "aaaa    bbbb   cc") =
      cleanReviewText "aaaa    bbbb   cc" ∧
    cleanReviewText (cleanReviewText "aaaa    bbbb   cc") ≠
      cleanReviewText "aaaa    bbbb   cc" := by
  constructor <;> decide

/-- Claim C4, amended: `clean("") = ""`, and `clean` is idempotent on
`clean(s)` provided no noise pattern re-emerges there (the noise-removal
stage leaves it unchanged) and whitespace collapsing did not push it to
the rejection region of the line filter — that is, `clean(s)` is empty,
or is longer than 15 characters and still contains a space. -/
theorem c4_empty_and_idempotent :
    cleanReviewText "" = "" ∧
    ∀ s : String, stripNoiseStr (cleanReviewText s) = cleanReviewText s →
      (cleanReviewText s = "" ∨
        (15 < (cleanReviewText s).length ∧
          (cleanReviewText s).data.contains ' ' = true)) →
      cleanReviewText (cleanReviewText s) = cleanReviewText s := by
  refine ⟨rfl, ?_⟩
  intro s h hor
  rcases hor with h0 | ⟨hlen, hsp⟩
  · rw [h0]
    rfl
  · have htne : cleanReviewText s ≠ "" := by
      intro h0
      rw [h0] at hlen
      simp at hlen
    have hsne : s ≠ "" := by
      intro h0
      rw [h0] at htne
      exact htne rfl
    have hdata : (cleanReviewText s).data = cleanCore s.data := by
      unfold cleanReviewText
      rw [if_neg hsne, stringDataMk]
    have P1 : stripNoise (cleanReviewText s).data = (cleanReviewText s).data := by
      have h2 := congrArg String.data h
      simpa only [stripNoiseStr, stringDataMk] using h2
    have P2 : '\n' ∉ (cleanReviewText s).data := by
      rw [hdata]
      exact cleanCore_no_nl s.data
    have P3 : jsTrim (cleanReviewText s).data = (cleanReviewText s).data := by
      rw [hdata]
      exact cleanCore_trimmed s.data
    have P4 : noTwoWs (cleanReviewText s).data = true := by
      rw [hdata]
      exact cleanCore_noTwoWs s.data
    exact cleanReviewText_again P1 P2 P3 P4 hlen hsp htne

theorem c4_empty_and_idempotent_witness :
    cleanReviewText (cleanReviewText "quite a worthwhile purchase") =
      cleanReviewText "quite a worthwhile purchase" :=
  c4_empty_and_idempotent.2 "quite a worthwhile purchase" (by decide)
    (Or.inr ⟨by decide, by decide⟩)
